import Mathlib

/-!
# Verification of the Robinhood portfolio-analytics pipeline

Shallow embedding of the core pipeline of `Robinhood/Robinhood.py`,
`Robinhood/RobinhoodOrder.py` and `Robinhood/IexStock.py`:

* order-ledger caching (`full_order_history`, `get_cached_order_history`),
* holdings reconstruction (`portfolio_history`),
* cost-basis accumulation (`get_stock_costs`),
* incremental price caching (`save_stock_prices`),
* the time-weighted-return computation (`time_weighted_returns`).

Modelling conventions:

* Python floats are modelled as `ℚ` (the claims under study are structural,
  not about rounding).
* `"YYYY-MM-DD"` date strings are modelled as day ordinals `ℕ`
  (lexicographic order on such strings coincides with day order);
  full ISO timestamps are modelled as second ordinals `ℕ`, with
  `day = timestamp / 86400`; weekdays are the residues `0..4` of the day
  ordinal mod 7 (ordinal 0 is a Monday).
  Where the source does calendar-field arithmetic (`save_stock_prices`)
  dates are modelled as year/month/day records (`PDate`).
* Python dicts whose key set is fixed are modelled as total functions with
  default `0`; dicts whose key set matters are association lists.
* Fallible code (uncaught `KeyError` / `IndexError` / `ZeroDivisionError` /
  `TypeError`, and `while` loops that may never terminate) is modelled in
  `Option`, `none` standing for the aborted run.
-/

namespace Robinhood

/-- Lookup in an association list with `ℕ` keys (first match wins, like a
Python dict whose keys are unique). -/
def histLookup {α : Type} : List (ℕ × α) → ℕ → Option α
  | [], _ => none
  | (k, v) :: t, d => if k = d then some v else histLookup t d

/-- Lookup in an association list with `String` keys. -/
def histLookupS {α : Type} : List (String × α) → String → Option α
  | [], _ => none
  | (k, v) :: t, d => if k = d then some v else histLookupS t d

/-- `d[k] = v` on an association-list dict: replace the entry in place if the
key exists, else append at the end (CPython dict insertion-order semantics). -/
def upsert {α : Type} : List (ℕ × α) → ℕ → α → List (ℕ × α)
  | [], k, v => [(k, v)]
  | (k', v') :: t, k, v => if k' = k then (k, v) :: t else (k', v') :: upsert t k v

theorem histLookup_upsert_self {α : Type} (l : List (ℕ × α)) (k : ℕ) (v : α) :
    histLookup (upsert l k v) k = some v := by
  induction l with
  | nil => simp [upsert, histLookup]
  | cons hd t ih =>
      obtain ⟨k', v'⟩ := hd
      by_cases h : k' = k
      · simp [upsert, h, histLookup]
      · simp [upsert, h, histLookup, ih]

theorem histLookup_upsert_ne {α : Type} (l : List (ℕ × α)) (k d : ℕ) (v : α)
    (h : d ≠ k) : histLookup (upsert l k v) d = histLookup l d := by
  induction l with
  | nil => simp [upsert, histLookup, if_neg (Ne.symm h)]
  | cons hd t ih =>
      obtain ⟨k', v'⟩ := hd
      simp only [upsert]
      by_cases hk : k' = k
      · rw [if_pos hk]
        subst hk
        simp [histLookup, if_neg (Ne.symm h)]
      · rw [if_neg hk]
        simp only [histLookup]
        by_cases hd' : k' = d
        · simp [hd']
        · simp [hd', ih]

theorem mem_keys_upsert {α : Type} (l : List (ℕ × α)) (k d : ℕ) (v : α) :
    d ∈ (upsert l k v).map Prod.fst ↔ d = k ∨ d ∈ l.map Prod.fst := by
  induction l with
  | nil => simp [upsert]
  | cons hd t ih =>
      obtain ⟨k', v'⟩ := hd
      simp only [upsert]
      by_cases h : k' = k
      · rw [if_pos h]
        subst h
        simp only [List.map_cons, List.mem_cons]
        tauto
      · rw [if_neg h]
        simp only [List.map_cons, List.mem_cons, ih]
        tauto

theorem histLookup_isSome_iff_mem_keys {α : Type} (l : List (ℕ × α)) (d : ℕ) :
    (histLookup l d).isSome ↔ d ∈ l.map Prod.fst := by
  induction l with
  | nil => simp [histLookup]
  | cons hd t ih =>
      obtain ⟨k, v⟩ := hd
      simp only [histLookup, List.map_cons, List.mem_cons]
      by_cases h : k = d
      · simp [h]
      · simp [h, ih, Ne.symm h]

/-! ## Roll-forward rule (claim C10)

`Robinhood.py` lines 1010-1011 and 1104-1105 both run

    while date not in table:
        date = (strptime(date) + timedelta(days=1)).strftime(...)

advancing the date string one day at a time until it is a key of a
date-indexed dict.  The loop is embedded fuel-indexed: `rollForwardF n`
performs at most `n` membership tests, and `none` models a run of the loop
that has not terminated within `n` steps. -/

def rollForwardF : ℕ → List ℕ → ℕ → Option ℕ
  | 0, _, _ => none
  | n + 1, keys, d => if d ∈ keys then some d else rollForwardF n keys (d + 1)

/-- The roll-forward loop with enough fuel to reach any key of the table:
its value is `some` exactly when the Python loop terminates. -/
def rollForward (keys : List ℕ) (d : ℕ) : Option ℕ :=
  rollForwardF (keys.foldr max 0 + 2 - d) keys d

theorem rollForwardF_succeeds (n : ℕ) :
    ∀ (keys : List ℕ) (d : ℕ), (∃ k ∈ keys, d ≤ k ∧ k - d < n) →
    (rollForwardF n keys d).isSome := by
  induction n with
  | zero => intro keys d ⟨k, _, _, hk⟩; omega
  | succ n ih =>
      intro keys d ⟨k, hkmem, hdk, hlt⟩
      by_cases h : d ∈ keys
      · simp [rollForwardF, h]
      · have hne : d ≠ k := fun h' => h (h' ▸ hkmem)
        simp only [rollForwardF, if_neg h]
        exact ih keys (d + 1) ⟨k, hkmem, by omega, by omega⟩

theorem rollForwardF_some_exists (n : ℕ) :
    ∀ (keys : List ℕ) (d : ℕ), (rollForwardF n keys d).isSome →
    ∃ k ∈ keys, d ≤ k := by
  induction n with
  | zero => intro keys d h; simp [rollForwardF] at h
  | succ n ih =>
      intro keys d h
      by_cases hd : d ∈ keys
      · exact ⟨d, hd, le_refl d⟩
      · simp only [rollForwardF, if_neg hd] at h
        obtain ⟨k, hk, hle⟩ := ih keys (d + 1) h
        exact ⟨k, hk, by omega⟩

/-- The result of a successful roll-forward is the least key `≥ d`. -/
theorem rollForwardF_eq_least (n : ℕ) :
    ∀ (keys : List ℕ) (d k : ℕ), rollForwardF n keys d = some k →
    k ∈ keys ∧ d ≤ k ∧ ∀ k' ∈ keys, d ≤ k' → k ≤ k' := by
  induction n with
  | zero => intro keys d k h; simp [rollForwardF] at h
  | succ n ih =>
      intro keys d k h
      by_cases hd : d ∈ keys
      · simp only [rollForwardF, if_pos hd, Option.some.injEq] at h
        subst h
        exact ⟨hd, le_refl d, fun k' _ h' => h'⟩
      · simp only [rollForwardF, if_neg hd] at h
        obtain ⟨hmem, hle, hleast⟩ := ih keys (d + 1) k h
        refine ⟨hmem, by omega, fun k' hk' hd' => ?_⟩
        rcases Nat.eq_or_lt_of_le hd' with h' | h'
        · exact absurd (h' ▸ hk') hd
        · exact hleast k' hk' h'

theorem le_foldr_max (l : List ℕ) (k : ℕ) (h : k ∈ l) : k ≤ l.foldr max 0 := by
  induction l with
  | nil => cases h
  | cons a t ih =>
      rcases List.mem_cons.mp h with h | h
      · subst h; exact le_max_left _ _
      · exact le_trans (ih h) (le_max_right _ _)

/-- The canonical-fuel roll-forward succeeds exactly when some key lies at or
after the start date. -/
theorem rollForward_isSome_iff (keys : List ℕ) (d : ℕ) :
    (rollForward keys d).isSome ↔ ∃ k ∈ keys, d ≤ k := by
  constructor
  · exact rollForwardF_some_exists _ keys d
  · rintro ⟨k, hk, hdk⟩
    apply rollForwardF_succeeds _ keys d
    exact ⟨k, hk, hdk, by have := le_foldr_max keys k hk; omega⟩

theorem rollForward_eq_least (keys : List ℕ) (d k : ℕ)
    (h : rollForward keys d = some k) :
    k ∈ keys ∧ d ≤ k ∧ ∀ k' ∈ keys, d ≤ k' → k ≤ k' :=
  rollForwardF_eq_least _ keys d k h

/-- **C10.** The roll-forward loops of `get_stock_costs` (lines 1010-1011)
and `time_weighted_returns` (lines 1104-1105) terminate if and only if the
bucket table has some key date at or after the starting date; when every key
precedes the starting date the loop never terminates (no amount of fuel makes
it return). -/
theorem C10_rollforward_terminates_iff (keys : List ℕ) (d : ℕ) :
    (∃ k ∈ keys, d ≤ k) ↔ ∃ n, (rollForwardF n keys d).isSome := by
  constructor
  · rintro ⟨k, hk, hdk⟩
    exact ⟨k - d + 1, rollForwardF_succeeds _ keys d ⟨k, hk, hdk, by omega⟩⟩
  · rintro ⟨n, h⟩
    exact rollForwardF_some_exists n keys d h

/-! ## Order-ledger cache (claims C7, C8)

`RobinhoodOrder.py` stores five fields; on the CSV cache path all five are
the raw strings that came out of the brokerage JSON, so the cache-level view
of an order is a record of five strings. -/

/-- The string-level view of `RobinhoodOrder` as it is written to and read
from the `order_history` CSV cache. -/
structure RobinhoodOrderStr where
  symbol : String
  action : String
  shares : String
  price : String
  date : String
deriving DecidableEq, Repr

/-- `RobinhoodOrder.getCsvHeader` (`RobinhoodOrder.py` lines 19-20). -/
def getCsvHeader : List String := ["symbol", "action", "shares", "price", "date"]

/-- `RobinhoodOrder.getCsvRow` (`RobinhoodOrder.py` lines 21-22). -/
def getCsvRow (o : RobinhoodOrderStr) : List String :=
  [o.symbol, o.action, o.shares, o.price, o.date]

/-- Lexicographic code-point comparison of character lists: the order Python
uses to compare strings. -/
def charListLe : List Char → List Char → Bool
  | [], _ => true
  | _ :: _, [] => false
  | a :: as, b :: bs =>
      if a.toNat = b.toNat then charListLe as bs
      else decide (a.toNat < b.toNat)

/-- Python string `<=` (lexicographic by code point). -/
def strLe (a b : String) : Bool := charListLe a.data b.data

/-- Stable insertion into a list sorted by the Boolean relation `le`. -/
def sortedInsert {α : Type} (le : α → α → Bool) (x : α) : List α → List α
  | [] => [x]
  | y :: t => if le x y then x :: y :: t else y :: sortedInsert le x t

/-- Stable insertion sort by a Boolean relation — the model of Python's
`sorted` where Mathlib's `insertionSort` is not kernel-computable. -/
def sortBy {α : Type} (le : α → α → Bool) : List α → List α
  | [] => []
  | x :: t => sortedInsert le x (sortBy le t)

/-- First-match lookup in a `(key, value)` list of strings. -/
def dictLookup : List (String × String) → String → Option String
  | [], _ => none
  | (k, v) :: t, key => if k = key then some v else dictLookup t key

/-- The dict built in `get_cached_order_history` (lines 892-894):
`d[headers[i]] = row[i]` for `i in range(len(row))`; a row longer than the
header raises `IndexError` (`none`); a later assignment to the same key wins,
hence the lookup in the reversed zip. -/
def rowDict (headers row : List String) : Option (String → Option String) :=
  if row.length ≤ headers.length then
    some (fun k => dictLookup (headers.zip row).reverse k)
  else none

/-- `getOrderFromDict` (`RobinhoodOrder.py` lines 1-2); a missing key is a
`KeyError` (`none`). -/
def getOrderFromDict (d : String → Option String) : Option RobinhoodOrderStr :=
  match d "symbol", d "action", d "shares", d "price", d "date" with
  | some s, some a, some sh, some p, some dt => some ⟨s, a, sh, p, dt⟩
  | _, _, _, _, _ => none

/-- The row loop of `get_cached_order_history` (lines 888-895) after the
header row has been captured. -/
def parseRows (headers : List String) : List (List String) → Option (List RobinhoodOrderStr)
  | [] => some []
  | row :: rest =>
      match rowDict headers row with
      | none => none
      | some d =>
          match getOrderFromDict d with
          | none => none
          | some o => (parseRows headers rest).map (o :: ·)

/-- Parse a whole cache file: the first row is the header, the remaining rows
are orders; an empty file yields the empty history. -/
def parseOrderCsv (rows : List (List String)) : Option (List RobinhoodOrderStr) :=
  match rows with
  | [] => some []
  | headers :: rest => parseRows headers rest

/-- `get_cached_order_history` (lines 881-900).  The `order_history` cache
directory is a listing of (file name, parsed CSV rows); the function sorts
the names and reads the lexicographically last file (`sorted(...)[-1]`).
An empty listing raises `IndexError` (`none`). -/
def get_cached_order_history (files : List (String × List (List String))) :
    Option (List RobinhoodOrderStr) :=
  match (sortBy strLe (files.map Prod.fst)).getLast? with
  | none => none
  | some newest =>
      match histLookupS files newest with
      | none => none
      | some rows => parseOrderCsv rows

/-- The cache-write of `full_order_history` (lines 938-942): a header row
followed by one `getCsvRow` per order (only reached when the history is
non-empty). -/
def writeOrderCache (history : List RobinhoodOrderStr) : List (List String) :=
  getCsvHeader :: history.map getCsvRow

/-- `full_order_history` (lines 902-943).  `cacheDir = none` models a missing
`order_history` directory; `fetched` stands for the (out-of-scope) paginated
network fetch followed by conversion, whose result the non-cache path
returns. -/
def full_order_history (use_cache : Bool)
    (cacheDir : Option (List (String × List (List String))))
    (fetched : List RobinhoodOrderStr) : Option (List RobinhoodOrderStr) :=
  match cacheDir with
  | some files =>
      if use_cache ∧ files.length > 0 then get_cached_order_history files
      else some fetched
  | none => some fetched

/-- **C7.** With the `use_cache` flag set and a non-empty cache directory,
`full_order_history` returns the parse of the single cache file whose name
sorts lexicographically last, ignores all older generations, and performs no
network fetch (its result does not depend on what a fetch would return). -/
theorem C7_cache_hit (files : List (String × List (List String)))
    (fetched fetched' : List RobinhoodOrderStr) (n : String) (rows : List (List String))
    (hne : files ≠ [])
    (hlast : (sortBy strLe (files.map Prod.fst)).getLast? = some n)
    (hlook : histLookupS files n = some rows) :
    full_order_history true (some files) fetched = parseOrderCsv rows ∧
    full_order_history true (some files) fetched =
      full_order_history true (some files) fetched' := by
  have hlen : files.length > 0 := List.length_pos.mpr hne
  simp only [full_order_history, true_and, if_pos hlen, get_cached_order_history,
    hlast, hlook]

/-- Witness for C7: two cache generations; the newer (name `"b"`) wins and
the fetch oracle is irrelevant. -/
theorem C7_cache_hit_witness :
    full_order_history true
        (some [("a", [["symbol", "action", "shares", "price", "date"],
                      ["AAPL", "buy", "1", "2", "d1"]]),
               ("b", [["symbol", "action", "shares", "price", "date"],
                      ["MSFT", "sell", "3", "4", "d2"]])])
        [⟨"X", "buy", "9", "9", "d9"⟩] =
      parseOrderCsv [["symbol", "action", "shares", "price", "date"],
                     ["MSFT", "sell", "3", "4", "d2"]] ∧
    full_order_history true
        (some [("a", [["symbol", "action", "shares", "price", "date"],
                      ["AAPL", "buy", "1", "2", "d1"]]),
               ("b", [["symbol", "action", "shares", "price", "date"],
                      ["MSFT", "sell", "3", "4", "d2"]])])
        [⟨"X", "buy", "9", "9", "d9"⟩] =
      full_order_history true
        (some [("a", [["symbol", "action", "shares", "price", "date"],
                      ["AAPL", "buy", "1", "2", "d1"]]),
               ("b", [["symbol", "action", "shares", "price", "date"],
                      ["MSFT", "sell", "3", "4", "d2"]])])
        [] :=
  C7_cache_hit _ _ _ "b" _ (by decide) (by decide) (by decide)

theorem parseRows_writeRows (history : List RobinhoodOrderStr) :
    parseRows getCsvHeader (history.map getCsvRow) = some history := by
  induction history with
  | nil => rfl
  | cons o rest ih =>
      simp only [List.map_cons, parseRows, rowDict, getCsvRow, getCsvHeader]
      simp +decide [dictLookup, getOrderFromDict]
      exact ih

/-- **C8.** Writing a non-empty order history to the ledger cache and
reloading it through the cache-hit path yields the same sequence of orders,
element by element, in the five written string fields. -/
theorem C8_roundtrip (name : String) (history : List RobinhoodOrderStr)
    (hne : history ≠ []) :
    get_cached_order_history [(name, writeOrderCache history)] = some history := by
  simp only [get_cached_order_history, List.map_cons, List.map_nil]
  have h1 : sortBy strLe [name] = [name] := rfl
  rw [h1]
  simp only [List.getLast?_singleton, histLookupS, if_pos rfl, writeOrderCache,
    parseOrderCsv]
  exact parseRows_writeRows history

/-- Witness for C8 at a concrete two-order history. -/
theorem C8_roundtrip_witness :
    get_cached_order_history
        [("gen1", writeOrderCache
            [⟨"AAPL", "buy", "1.5", "100.0", "2020-01-02T10:00:00Z"⟩,
             ⟨"AAPL", "sell", "0.5", "110.0", "2020-02-03T10:00:00Z"⟩])] =
      some [⟨"AAPL", "buy", "1.5", "100.0", "2020-01-02T10:00:00Z"⟩,
            ⟨"AAPL", "sell", "0.5", "110.0", "2020-02-03T10:00:00Z"⟩] :=
  C8_roundtrip "gen1" _ (by decide)

/-! ## Price cache (`save_stock_prices`, claims C6 and C9)

`save_stock_prices` (lines 1021-1070) does calendar-field arithmetic on
`datetime` values, so here dates are year/month/day records.  `dateOrd` is
the proleptic-Gregorian day ordinal (what `datetime.toordinal` computes), so
`(ed - ld).days = dateOrd ed - dateOrd ld` for the midnight datetimes the
source builds with `strptime(.., "%Y-%m-%d")`. -/

/-- A calendar date as parsed by `datetime.strptime(s, "%Y-%m-%d")`. -/
structure PDate where
  year : ℕ
  month : ℕ
  day : ℕ
deriving DecidableEq, Repr

def isLeap (y : ℕ) : Bool := y % 4 = 0 && (y % 100 ≠ 0 || y % 400 = 0)

/-- Days in the months before month `m` (1-based) of a year with the given
leap flag. -/
def daysBeforeMonth (leap : Bool) (m : ℕ) : ℕ :=
  (([31, if leap then 29 else 28, 31, 30, 31, 30, 31, 31, 30, 31, 30, 31] :
      List ℕ).take (m - 1)).sum

/-- Proleptic-Gregorian day ordinal (day 1 = 0001-01-01), as in
`datetime.toordinal`. -/
def dateOrd (d : PDate) : ℕ :=
  365 * (d.year - 1) + (d.year - 1) / 4 - (d.year - 1) / 100 + (d.year - 1) / 400
    + daysBeforeMonth (isLeap d.year) d.month + d.day

/-- `diff_month` (`Robinhood.py` lines 37-38). -/
def diff_month (d1 d2 : PDate) : ℤ :=
  ((d1.year : ℤ) - d2.year) * 12 + ((d1.month : ℤ) - d2.month)

/-- The `request_range` selection of `save_stock_prices` (lines 1047-1062):
`ed` is the portfolio end date, `ld` the last cached date. -/
def request_range (ed ld : PDate) : String :=
  if (ed.year : ℤ) - ld.year ≥ 2 then "max"
  else if (ed.year : ℤ) - ld.year = 1 then "2y"
  else if diff_month ed ld > 6 then "1y"
  else if diff_month ed ld > 3 then "6m"
  else if diff_month ed ld > 1 then "3m"
  else if (dateOrd ed : ℤ) - (dateOrd ld : ℤ) > 5 then "1m"
  else "5d"

/-- The `historical_prices` cache directory: per-symbol optional files, each
a list of `(date, close)` data rows (the constant header row is left
implicit; a file whose data-row list is empty makes the source `strptime`
the header cell and crash). -/
def PriceFS : Type := String → Option (List (PDate × String))

def fsUpdate (fs : PriceFS) (stock : String) (rows : List (PDate × String)) : PriceFS :=
  fun s => if s = stock then some rows else fs s

/-- One iteration of the `for stock in stocks` loop of `save_stock_prices`
(lines 1031-1070).  The returned list records every `iex.hist_data` call
(stock, range keyword) the iteration performs; `fetch` is the price-provider
oracle. -/
def save_one (fetch : String → String → List (PDate × String)) (end_date : PDate)
    (acc : Option (PriceFS × List (String × String))) (stock : String) :
    Option (PriceFS × List (String × String)) :=
  match acc with
  | none => none
  | some (fs, calls) =>
      match fs stock with
      | none =>
          some (fsUpdate fs stock (fetch stock "max"), calls ++ [(stock, "max")])
      | some rows =>
          match rows.getLast? with
          | none => none
          | some (ld, _) =>
              if ld = end_date then some (fs, calls)
              else
                some (fsUpdate fs stock
                        (rows ++ (fetch stock (request_range end_date ld)).filter
                           (fun r => decide (dateOrd ld < dateOrd r.1))),
                      calls ++ [(stock, request_range end_date ld)])

/-- `save_stock_prices` (lines 1021-1070).  `end_date` is
`sorted(port_hist.keys())[-1]`; `stocks` stands for
`port_hist[start_date].keys()` (the full symbol set, which
`portfolio_history` puts on every date). -/
def save_stock_prices (fetch : String → String → List (PDate × String))
    (port_dates : List PDate) (stocks : List String) (fs : PriceFS) :
    Option (PriceFS × List (String × String)) :=
  match (sortBy (fun a b => decide (dateOrd a ≤ dateOrd b)) port_dates).getLast? with
  | none => none
  | some end_date => stocks.foldl (save_one fetch end_date) (some (fs, []))

theorem save_one_complete (fetch : String → String → List (PDate × String))
    (end_date : PDate) (fs : PriceFS) (calls : List (String × String))
    (stock : String) (rows : List (PDate × String)) (c : String)
    (hfile : fs stock = some rows) (hlast : rows.getLast? = some (end_date, c)) :
    save_one fetch end_date (some (fs, calls)) stock = some (fs, calls) := by
  simp [save_one, hfile, hlast]

theorem foldl_save_one_complete (fetch : String → String → List (PDate × String))
    (end_date : PDate) (fs : PriceFS) :
    ∀ (stocks : List String) (calls : List (String × String)),
    (∀ st ∈ stocks, ∃ rows c, fs st = some rows ∧ rows.getLast? = some (end_date, c)) →
    stocks.foldl (save_one fetch end_date) (some (fs, calls)) = some (fs, calls) := by
  intro stocks
  induction stocks with
  | nil => intro calls _; rfl
  | cons st rest ih =>
      intro calls hc
      obtain ⟨rows, c, hfile, hlast⟩ := hc st (List.mem_cons_self st rest)
      simp only [List.foldl_cons,
        save_one_complete fetch end_date fs calls st rows c hfile hlast]
      exact ih calls (fun st' h => hc st' (List.mem_cons_of_mem st h))

/-- **C9.** If every portfolio symbol's price-cache file ends at the target
end date (the last holdings date), `save_stock_prices` makes no call to the
price provider and leaves every cache file unchanged, so the price data
subsequently read back is identical. -/
theorem C9_idempotent (fetch : String → String → List (PDate × String))
    (port_dates : List PDate) (stocks : List String) (fs : PriceFS) (end_date : PDate)
    (hend : (sortBy (fun a b => decide (dateOrd a ≤ dateOrd b)) port_dates).getLast?
              = some end_date)
    (hc : ∀ st ∈ stocks, ∃ rows c, fs st = some rows ∧
            rows.getLast? = some (end_date, c)) :
    save_stock_prices fetch port_dates stocks fs = some (fs, []) := by
  unfold save_stock_prices
  rw [hend]
  exact foldl_save_one_complete fetch end_date fs stocks [] hc

/-- Witness for C9: one symbol whose cache already ends at the single
holdings date. -/
theorem C9_idempotent_witness :
    save_stock_prices (fun _ _ => []) [⟨2021, 1, 4⟩] ["AAPL"]
        (fun s => if s = "AAPL" then some [(⟨2021, 1, 4⟩, "130.0")] else none) =
      some ((fun s => if s = "AAPL" then some [(⟨2021, 1, 4⟩, "130.0")] else none), []) :=
  C9_idempotent (fun _ _ => []) [⟨2021, 1, 4⟩] ["AAPL"]
    (fun s => if s = "AAPL" then some [(⟨2021, 1, 4⟩, "130.0")] else none)
    ⟨2021, 1, 4⟩ (by decide)
    (by
      intro st hst
      have h : st = "AAPL" := List.mem_singleton.mp hst
      subst h
      exact ⟨[(⟨2021, 1, 4⟩, "130.0")], "130.0", rfl, rfl⟩)

/-- Modelled from the claim's words for C6: a range keyword chosen from the
elapsed time between the last cached date and the target end date, with the
year/month thresholds read as elapsed durations in days. -/
def specRangeElapsed (elapsedDays : ℤ) : String :=
  if elapsedDays ≥ 730 then "max"
  else if elapsedDays ≥ 365 then "2y"
  else if elapsedDays > 182 then "1y"
  else if elapsedDays > 91 then "6m"
  else if elapsedDays > 30 then "3m"
  else if elapsedDays > 5 then "1m"
  else "5d"

/-- Counterexample to C6 as stated: from 2021-12-31 to 2022-01-01 the elapsed
time is one day, which every elapsed-time reading of the claim's thresholds
sends to `"5d"`, yet the source picks `"2y"` because the year *numbers*
differ by one. -/
theorem C6_counterexample :
    request_range ⟨2022, 1, 1⟩ ⟨2021, 12, 31⟩ = "2y" ∧
    (dateOrd ⟨2022, 1, 1⟩ : ℤ) - (dateOrd ⟨2021, 12, 31⟩ : ℤ) = 1 ∧
    specRangeElapsed ((dateOrd ⟨2022, 1, 1⟩ : ℤ) - (dateOrd ⟨2021, 12, 31⟩ : ℤ)) = "5d" ∧
    ("2y" : String) ≠ "5d" := by
  refine ⟨by decide, by decide, ?_, by decide⟩
  have h : (dateOrd ⟨2022, 1, 1⟩ : ℤ) - (dateOrd ⟨2021, 12, 31⟩ : ℤ) = 1 := by decide
  rw [h]
  decide

/-- Modelled from the amended claim for C6: thresholds applied to
calendar-field differences (year-number difference, month-index difference,
day-ordinal difference) rather than to elapsed time. -/
def specRangeCalendar (ed ld : PDate) : String :=
  if (ed.year : ℤ) - ld.year ≥ 2 then "max"
  else if (ed.year : ℤ) - ld.year = 1 then "2y"
  else if ((ed.year : ℤ) * 12 + ed.month) - ((ld.year : ℤ) * 12 + ld.month) > 6 then "1y"
  else if ((ed.year : ℤ) * 12 + ed.month) - ((ld.year : ℤ) * 12 + ld.month) > 3 then "6m"
  else if ((ed.year : ℤ) * 12 + ed.month) - ((ld.year : ℤ) * 12 + ld.month) > 1 then "3m"
  else if (dateOrd ed : ℤ) - (dateOrd ld : ℤ) > 5 then "1m"
  else "5d"

/-- **C6 (amended).** When a cache file's last recorded date `ld` differs
from the target end date, the fetch range is chosen by the calendar-field
thresholds of `specRangeCalendar`, and exactly the fetched records strictly
newer than `ld` are appended to the file. -/
theorem C6_amended_range_and_append
    (fetch : String → String → List (PDate × String)) (end_date : PDate)
    (fs : PriceFS) (calls : List (String × String)) (stock : String)
    (rows : List (PDate × String)) (ld : PDate) (c : String)
    (hfile : fs stock = some rows) (hlast : rows.getLast? = some (ld, c))
    (hne : ld ≠ end_date) :
    save_one fetch end_date (some (fs, calls)) stock =
      some (fsUpdate fs stock
              (rows ++ (fetch stock (specRangeCalendar end_date ld)).filter
                 (fun r => decide (dateOrd ld < dateOrd r.1))),
            calls ++ [(stock, specRangeCalendar end_date ld)]) := by
  have hr : request_range end_date ld = specRangeCalendar end_date ld := by
    unfold request_range specRangeCalendar diff_month
    have hm : ((end_date.year : ℤ) - ld.year) * 12 + ((end_date.month : ℤ) - ld.month)
        = ((end_date.year : ℤ) * 12 + end_date.month) - ((ld.year : ℤ) * 12 + ld.month) := by
      ring
    rw [hm]
  simp only [save_one, hfile, hlast, if_neg hne, hr]

/-- Witness for the amended C6: last cached 2021-12-31, end 2022-01-01 —
the source fetches range `"2y"` and appends only the strictly newer row. -/
theorem C6_amended_witness :
    save_one (fun _ _ => [(⟨2021, 12, 31⟩, "99"), (⟨2022, 1, 1⟩, "100")]) ⟨2022, 1, 1⟩
        (some ((fun s => if s = "AAPL" then some [(⟨2021, 12, 31⟩, "99")] else none), []))
        "AAPL" =
      some (fsUpdate (fun s => if s = "AAPL" then some [(⟨2021, 12, 31⟩, "99")] else none)
              "AAPL"
              ([(⟨2021, 12, 31⟩, "99")] ++
                 ([(⟨2021, 12, 31⟩, "99"), (⟨2022, 1, 1⟩, "100")].filter
                    (fun r => decide (dateOrd ⟨2021, 12, 31⟩ < dateOrd r.1)))),
            [("AAPL", specRangeCalendar ⟨2022, 1, 1⟩ ⟨2021, 12, 31⟩)]) := by
  have h := C6_amended_range_and_append
      (fun _ _ => [(⟨2021, 12, 31⟩, "99"), (⟨2022, 1, 1⟩, "100")]) ⟨2022, 1, 1⟩
      (fun s => if s = "AAPL" then some [(⟨2021, 12, 31⟩, "99")] else none) []
      "AAPL" [(⟨2021, 12, 31⟩, "99")] ⟨2021, 12, 31⟩ "99" rfl rfl (by decide)
  simpa using h

/-! ## Holdings reconstruction (`portfolio_history`, claim C1)

The numeric view of `RobinhoodOrder`: `float(shares)` / `float(price)` as
`ℚ`, and the ISO timestamp as a second ordinal (lexicographic order on ISO
timestamp strings is chronological order, and `getDate`, which keeps the part
before `"T"`, is the day ordinal `timestamp / 86400`).  Day ordinal 0 is a
Monday, so the weekdays `rrule(DAILY, byweekday=(MO..FR))` keeps are the day
ordinals with residue `< 5` mod 7. -/

structure RobinhoodOrder where
  symbol : String
  action : String
  shares : ℚ
  price : ℚ
  date : ℕ
deriving DecidableEq, Repr

def secondsPerDay : ℕ := 86400

/-- `RobinhoodOrder.getDate` (`RobinhoodOrder.py` lines 17-18). -/
def RobinhoodOrder.getDate (o : RobinhoodOrder) : ℕ := o.date / secondsPerDay

/-- `RobinhoodOrder.getPrice` (`RobinhoodOrder.py` lines 13-16). -/
def RobinhoodOrder.getPrice (o : RobinhoodOrder) : ℚ :=
  if o.action = "buy" then -1 * o.price * o.shares else o.price * o.shares

def isWeekday (d : ℕ) : Bool := d % 7 < 5

/-- `daterange` (`Robinhood.py` lines 33-34): all weekdays from `start` to
`stop`, both inclusive. -/
def daterange (start stop : ℕ) : List ℕ :=
  (List.range' start (stop + 1 - start)).filter isWeekday

/-- The sort key of `sorted(order_history, key=lambda x: x.date)` (line 952). -/
def orderLe (a b : RobinhoodOrder) : Prop := a.date ≤ b.date

instance : DecidableRel orderLe := fun a b => Nat.decLe a.date b.date

instance : IsTotal RobinhoodOrder orderLe := ⟨fun a b => Nat.le_total a.date b.date⟩

instance : IsTrans RobinhoodOrder orderLe := ⟨fun _ _ _ h1 h2 => Nat.le_trans h1 h2⟩

/-- A holdings dict, symbols absent from the dict reading as 0 shares (the
source inserts `running_portfolio[log.symbol] = 0` on first touch and reads
`0 if stock not in running_portfolio else ...`). -/
abbrev Portfolio := String → ℚ

/-- The effect of one order on the running portfolio (lines 964-969): sell
subtracts the shares, anything else adds them. -/
def applyLog (p : Portfolio) (o : RobinhoodOrder) : Portfolio :=
  fun s =>
    if s = o.symbol then
      if o.action = "sell" then p s - o.shares else p s + o.shares
    else p s

/-- The accumulation loop of `portfolio_history` (lines 958-969).  Python
keeps `port_hist[date]` as an alias of the running dict and deep-copies only
when a new date appears, so after each processed order the entry for that
order's date equals the running portfolio; `upsert` replays exactly that. -/
def buildHist : List RobinhoodOrder → Portfolio → List (ℕ × Portfolio) →
    Portfolio × List (ℕ × Portfolio)
  | [], rp, ph => (rp, ph)
  | o :: rest, rp, ph =>
      buildHist rest (applyLog rp o) (upsert ph o.getDate (applyLog rp o))

/-- The calendar scan of `portfolio_history` (lines 984-1001): walk the
weekday range, refresh the carried snapshot on dates that have one, and emit
a row per date.  `none` models the `TypeError` of reading
`stock not in running_portfolio` while `running_portfolio` is still `None`. -/
def buildResult (ph : List (ℕ × Portfolio)) :
    List ℕ → Option Portfolio → Option (List (ℕ × Portfolio))
  | [], _ => some []
  | d :: rest, rp =>
      match (match histLookup ph d with
             | some p => some p
             | none => rp) with
      | none => none
      | some p => (buildResult ph rest (some p)).map ((d, p) :: ·)

/-- The tail of `portfolio_history` after the snapshot dict is built:
`start_date = sorted(port_hist.keys())[0]` (line 971, `IndexError` on an
empty history, hence `none`), then the calendar scan. -/
def portHistAux (ph : List (ℕ × Portfolio)) (now : ℕ) :
    List ℕ → Option (List (ℕ × Portfolio))
  | [] => none
  | start :: _ => buildResult ph (daterange start now) none

/-- `portfolio_history` (lines 945-1002) as a function of the order history
and the current day ordinal.  Rows are total functions whose conceptual key
set is `all_stocks`. -/
def portfolio_history (history : List RobinhoodOrder) (now : ℕ) :
    Option (List (ℕ × Portfolio)) :=
  let sortedH := List.insertionSort orderLe history
  let ph := (buildHist sortedH (fun _ => 0) []).2
  portHistAux ph now (List.insertionSort (· ≤ ·) (ph.map Prod.fst))

/-- The table value at day `D` and symbol `s` of a `portfolio_history`
result. -/
def valueAt (r : Option (List (ℕ × Portfolio))) (D : ℕ) (s : String) : Option ℚ :=
  r.bind fun tbl => (histLookup tbl D).map fun p => p s

/-- The claim's share count: total bought minus total sold for symbol `s`
over the events dated on or before day `D`. -/
def claimShares (history : List RobinhoodOrder) (s : String) (D : ℕ) : ℚ :=
  ((history.filter fun o =>
      decide (o.symbol = s) && decide (o.action = "buy") && decide (o.getDate ≤ D)).map
    (·.shares)).sum -
  ((history.filter fun o =>
      decide (o.symbol = s) && decide (o.action = "sell") && decide (o.getDate ≤ D)).map
    (·.shares)).sum

/-- The signed share delta the source applies (sell subtracts, else adds). -/
def signedShares (o : RobinhoodOrder) : ℚ :=
  if o.action = "sell" then -o.shares else o.shares

/-- The snapshot the source's accumulation loop associates with day `d`:
the fold of all events dated `≤ d` (in sorted order) over the empty
portfolio. -/
def snapAt (l : List RobinhoodOrder) (d : ℕ) : Portfolio :=
  (l.filter fun o => decide (o.getDate ≤ d)).foldl applyLog (fun _ => 0)

/-- Orders sorted by timestamp are in particular sorted by calendar day. -/
def daySorted (l : List RobinhoodOrder) : Prop :=
  l.Pairwise fun a b => a.getDate ≤ b.getDate

theorem applyLog_apply (p : Portfolio) (o : RobinhoodOrder) (s : String) :
    applyLog p o s = p s + (if o.symbol = s then signedShares o else 0) := by
  unfold applyLog signedShares
  by_cases h : s = o.symbol
  · rw [if_pos h, if_pos h.symm]
    by_cases ha : o.action = "sell" <;> simp [ha] <;> ring
  · rw [if_neg h, if_neg (fun h' => h h'.symm)]
    ring

theorem foldl_applyLog (l : List RobinhoodOrder) :
    ∀ (rp : Portfolio) (s : String),
    (l.foldl applyLog rp) s =
      rp s + ((l.filter fun o => decide (o.symbol = s)).map signedShares).sum := by
  induction l with
  | nil => intro rp s; simp
  | cons o rest ih =>
      intro rp s
      rw [List.foldl_cons, ih (applyLog rp o) s, applyLog_apply]
      by_cases h : o.symbol = s
      · rw [if_pos h, List.filter_cons_of_pos (by simpa using h)]
        simp [add_assoc]
      · rw [if_neg h, List.filter_cons_of_neg (by simpa using h)]
        ring

theorem buildHist_fst (l : List RobinhoodOrder) :
    ∀ (rp : Portfolio) (ph : List (ℕ × Portfolio)),
    (buildHist l rp ph).1 = l.foldl applyLog rp := by
  induction l with
  | nil => intro rp ph; rfl
  | cons o rest ih => intro rp ph; rw [buildHist, ih, List.foldl_cons]

theorem buildHist_keys (l : List RobinhoodOrder) :
    ∀ (rp : Portfolio) (ph : List (ℕ × Portfolio)) (d : ℕ),
    d ∈ (buildHist l rp ph).2.map Prod.fst ↔
      d ∈ ph.map Prod.fst ∨ ∃ o ∈ l, o.getDate = d := by
  induction l with
  | nil => intro rp ph d; simp [buildHist]
  | cons o rest ih =>
      intro rp ph d
      rw [buildHist, ih, mem_keys_upsert]
      constructor
      · rintro (⟨h | h⟩ | ⟨o', ho', h⟩)
        · exact Or.inr ⟨o, List.mem_cons_self o rest, h.symm⟩
        · exact Or.inl h
        · exact Or.inr ⟨o', List.mem_cons_of_mem o ho', h⟩
      · rintro (h | ⟨o', ho', h⟩)
        · exact Or.inl (Or.inr h)
        · rcases List.mem_cons.mp ho' with h' | h'
          · exact Or.inl (Or.inl (h' ▸ h).symm)
          · exact Or.inr ⟨o', h', h⟩

theorem buildHist_lookup_of_not_mem (l : List RobinhoodOrder) :
    ∀ (rp : Portfolio) (ph : List (ℕ × Portfolio)) (d : ℕ),
    (∀ o ∈ l, o.getDate ≠ d) →
    histLookup (buildHist l rp ph).2 d = histLookup ph d := by
  induction l with
  | nil => intro rp ph d _; rfl
  | cons o rest ih =>
      intro rp ph d hno
      rw [buildHist, ih _ _ _ (fun o' h => hno o' (List.mem_cons_of_mem o h)),
        histLookup_upsert_ne]
      exact fun h => hno o (List.mem_cons_self o rest) h.symm

theorem buildHist_lookup_of_mem (l : List RobinhoodOrder) :
    ∀ (rp : Portfolio) (ph : List (ℕ × Portfolio)) (d : ℕ),
    daySorted l → (∃ o ∈ l, o.getDate = d) →
    histLookup (buildHist l rp ph).2 d =
      some ((l.filter fun o => decide (o.getDate ≤ d)).foldl applyLog rp) := by
  induction l with
  | nil => intro rp ph d _ h; simp at h
  | cons o rest ih =>
      intro rp ph d hsort hmem
      have hsort' : daySorted rest := (List.pairwise_cons.mp hsort).2
      have hhead : ∀ o' ∈ rest, o.getDate ≤ o'.getDate := (List.pairwise_cons.mp hsort).1
      rw [buildHist]
      by_cases hrest : ∃ o' ∈ rest, o'.getDate = d
      · obtain ⟨o', ho', hd'⟩ := hrest
        have hod : o.getDate ≤ d := hd' ▸ hhead o' ho'
        rw [ih _ _ _ hsort' ⟨o', ho', hd'⟩,
          List.filter_cons_of_pos (by simpa using hod), List.foldl_cons]
      · have hod : o.getDate = d := by
          rcases hmem with ⟨o', ho', hd'⟩
          rcases List.mem_cons.mp ho' with h | h
          · exact h ▸ hd'
          · exact absurd ⟨o', h, hd'⟩ hrest
        rw [buildHist_lookup_of_not_mem rest _ _ d
              (fun o' h' hd' => hrest ⟨o', h', hd'⟩)]
        rw [hod, histLookup_upsert_self]
        have hfr : rest.filter (fun o' => decide (o'.getDate ≤ d)) = [] := by
          rw [List.filter_eq_nil_iff]
          intro o' ho'
          have h1 : o.getDate ≤ o'.getDate := hhead o' ho'
          have h2 : o'.getDate ≠ d := fun h => hrest ⟨o', ho', h⟩
          simp only [decide_eq_true_eq]
          omega
        rw [List.filter_cons_of_pos (by simp [hod]), hfr, List.foldl_cons,
          List.foldl_nil]

theorem claimShares_eq_sum_signed (l : List RobinhoodOrder) (s : String) (D : ℕ)
    (hact : ∀ o ∈ l, o.action = "buy" ∨ o.action = "sell") :
    ((l.filter fun o => decide (o.symbol = s) && decide (o.getDate ≤ D)).map
        signedShares).sum = claimShares l s D := by
  induction l with
  | nil => simp [claimShares]
  | cons o rest ih =>
      have ih' := ih (fun o' h => hact o' (List.mem_cons_of_mem o h))
      have hcase := hact o (List.mem_cons_self o rest)
      unfold claimShares at ih' ⊢
      by_cases hs : o.symbol = s
      · by_cases hd : o.getDate ≤ D
        · rcases hcase with ha | ha
          · rw [List.filter_cons_of_pos (by simp [hs, hd]),
              List.filter_cons_of_pos (by simp [hs, hd, ha]),
              List.filter_cons_of_neg (by simp [ha])]
            have hsig : signedShares o = o.shares := by simp [signedShares, ha]
            simp only [List.map_cons, List.sum_cons]
            rw [ih', hsig]
            ring
          · rw [List.filter_cons_of_pos (by simp [hs, hd]),
              List.filter_cons_of_neg (by simp [ha]),
              List.filter_cons_of_pos (by simp [hs, hd, ha])]
            have hsig : signedShares o = -o.shares := by simp [signedShares, ha]
            simp only [List.map_cons, List.sum_cons]
            rw [ih', hsig]
            ring
        · rw [List.filter_cons_of_neg (by simp [hd]),
            List.filter_cons_of_neg (by simp [hd]),
            List.filter_cons_of_neg (by simp [hd])]
          exact ih'
      · rw [List.filter_cons_of_neg (by simp [hs]),
          List.filter_cons_of_neg (by simp [hs]),
          List.filter_cons_of_neg (by simp [hs])]
        exact ih'

theorem snapAt_eq_claim (l : List RobinhoodOrder) (s : String) (D : ℕ)
    (hact : ∀ o ∈ l, o.action = "buy" ∨ o.action = "sell") :
    snapAt l D s = claimShares l s D := by
  rw [snapAt, foldl_applyLog, List.filter_filter]
  rw [claimShares_eq_sum_signed l s D hact]
  simp

theorem claimShares_perm (l l' : List RobinhoodOrder) (s : String) (D : ℕ)
    (h : l.Perm l') : claimShares l s D = claimShares l' s D := by
  unfold claimShares
  rw [((h.filter _).map _).sum_eq, ((h.filter _).map _).sum_eq]

theorem buildResult_go (ph : List (ℕ × Portfolio)) (l : List RobinhoodOrder)
    (hlk : ∀ d q, histLookup ph d = some q → q = snapAt l d)
    (hkeys : ∀ d, (histLookup ph d).isSome ↔ ∃ o ∈ l, o.getDate = d) :
    ∀ (ds : List ℕ) (b : ℕ) (p : Portfolio),
    p = snapAt l b →
    List.Chain' (· < ·) (b :: ds) →
    (∀ o ∈ l, o.getDate ≤ b ∨ o.getDate ∈ ds ∨ ∀ d ∈ ds, d < o.getDate) →
    ∃ tbl, buildResult ph ds (some p) = some tbl ∧ tbl.map Prod.fst = ds ∧
      ∀ D q, (D, q) ∈ tbl → q = snapAt l D := by
  intro ds
  induction ds with
  | nil =>
      intro b p _ _ _
      exact ⟨[], rfl, rfl, by simp⟩
  | cons D rest ih =>
      intro b p hp hchain hcover
      have hbD : b < D := (List.chain'_cons.mp hchain).1
      have hchain' : List.Chain' (· < ·) (D :: rest) := (List.chain'_cons.mp hchain).2
      have hDrest : ∀ d ∈ rest, D < d := by
        have hpw := List.chain'_iff_pairwise.mp hchain'
        exact (List.pairwise_cons.mp hpw).1
      cases hq : histLookup ph D with
      | some q =>
          have hqs : q = snapAt l D := hlk D q hq
          have hcover' : ∀ o ∈ l,
              o.getDate ≤ D ∨ o.getDate ∈ rest ∨ ∀ d ∈ rest, d < o.getDate := by
            intro o ho
            rcases hcover o ho with h | h | h
            · exact Or.inl (le_trans h (le_of_lt hbD))
            · rcases List.mem_cons.mp h with h' | h'
              · exact Or.inl (le_of_eq h')
              · exact Or.inr (Or.inl h')
            · exact Or.inr (Or.inr fun d hd => h d (List.mem_cons_of_mem D hd))
          obtain ⟨tbl, htbl, hmap, hval⟩ := ih D q hqs hchain' hcover'
          refine ⟨(D, q) :: tbl, ?_, by simp [hmap], ?_⟩
          · simp only [buildResult, hq, htbl]
            rfl
          · rintro D' q' h'
            rcases List.mem_cons.mp h' with h' | h'
            · rw [Prod.mk.injEq] at h'
              obtain ⟨rfl, rfl⟩ := h'
              exact hqs
            · exact hval D' q' h'
      | none =>
          have hnD : ¬∃ o ∈ l, o.getDate = D := by
            rw [← hkeys D, hq]
            simp
          have hpD : p = snapAt l D := by
            rw [hp]
            unfold snapAt
            congr 1
            apply List.filter_congr
            intro o ho
            rcases hcover o ho with h | h | h
            · have : o.getDate ≤ D := by omega
              simp [h, this]
            · rcases List.mem_cons.mp h with h' | h'
              · exact absurd ⟨o, ho, h'⟩ hnD
              · have h1 : D < o.getDate := hDrest _ h'
                have h2 : ¬o.getDate ≤ b := by omega
                have h3 : ¬o.getDate ≤ D := by omega
                simp [h2, h3]
            · have h1 : D < o.getDate := h D (List.mem_cons_self D rest)
              have h2 : ¬o.getDate ≤ b := by omega
              have h3 : ¬o.getDate ≤ D := by omega
              simp [h2, h3]
          have hcover' : ∀ o ∈ l,
              o.getDate ≤ D ∨ o.getDate ∈ rest ∨ ∀ d ∈ rest, d < o.getDate := by
            intro o ho
            rcases hcover o ho with h | h | h
            · exact Or.inl (by omega)
            · rcases List.mem_cons.mp h with h' | h'
              · exact Or.inl (le_of_eq h')
              · exact Or.inr (Or.inl h')
            · exact Or.inr (Or.inr fun d hd => h d (List.mem_cons_of_mem D hd))
          obtain ⟨tbl, htbl, hmap, hval⟩ := ih D p hpD hchain' hcover'
          refine ⟨(D, p) :: tbl, ?_, by simp [hmap], ?_⟩
          · simp only [buildResult, hq, htbl]
            rfl
          · rintro D' q' h'
            rcases List.mem_cons.mp h' with h' | h'
            · rw [Prod.mk.injEq] at h'
              obtain ⟨rfl, rfl⟩ := h'
              exact hpD
            · exact hval D' q' h'

/-- **C1 (amended).** For a non-empty order history whose actions are
`buy`/`sell` and all of whose trade dates are weekdays, `portfolio_history`
succeeds and returns a table whose keys are exactly the weekdays from the
earliest trade date `m` through the current date, with the share count at
`(D, s)` equal to the shares bought minus the shares sold for `s` on or
before `D` (dates without trades carrying the latest snapshot forward). -/
theorem C1_portfolio_history (history : List RobinhoodOrder) (now m : ℕ)
    (hne : history ≠ [])
    (hact : ∀ o ∈ history, o.action = "buy" ∨ o.action = "sell")
    (hwk : ∀ o ∈ history, isWeekday o.getDate = true)
    (hmin : ∀ o ∈ history, m ≤ o.getDate)
    (hmem : ∃ o ∈ history, o.getDate = m) :
    ∃ tbl, portfolio_history history now = some tbl ∧
      tbl.map Prod.fst = daterange m now ∧
      ∀ D p, (D, p) ∈ tbl → ∀ s, p s = claimShares history s D := by
  classical
  set sortedH := List.insertionSort orderLe history with hsH
  have hperm : sortedH.Perm history := List.perm_insertionSort orderLe history
  have hactS : ∀ o ∈ sortedH, o.action = "buy" ∨ o.action = "sell" :=
    fun o ho => hact o (hperm.mem_iff.mp ho)
  have hsorted : daySorted sortedH := by
    have h := List.sorted_insertionSort orderLe history
    exact h.imp fun hab => Nat.div_le_div_right hab
  set ph := (buildHist sortedH (fun _ => 0) []).2 with hph
  have hkeymem : ∀ d, d ∈ ph.map Prod.fst ↔ ∃ o ∈ sortedH, o.getDate = d := by
    intro d
    rw [hph, buildHist_keys]
    simp
  have hkeys : ∀ d, (histLookup ph d).isSome ↔ ∃ o ∈ sortedH, o.getDate = d := by
    intro d
    rw [histLookup_isSome_iff_mem_keys]
    exact hkeymem d
  have hlk : ∀ d q, histLookup ph d = some q → q = snapAt sortedH d := by
    intro d q hq
    have hs : (histLookup ph d).isSome := by rw [hq]; rfl
    have hd := (hkeys d).mp hs
    rw [hph, buildHist_lookup_of_mem sortedH _ _ d hsorted hd] at hq
    exact (Option.some.inj hq).symm
  obtain ⟨o₀, ho₀, hod₀⟩ := hmem
  have ho₀s : o₀ ∈ sortedH := hperm.mem_iff.mpr ho₀
  have hm_mem : m ∈ ph.map Prod.fst := (hkeymem m).mpr ⟨o₀, ho₀s, hod₀⟩
  set ks := List.insertionSort (· ≤ ·) (ph.map Prod.fst) with hks
  have hks_sorted : List.Sorted (· ≤ ·) ks := List.sorted_insertionSort _ _
  have hmks : m ∈ ks := by rw [hks, List.mem_insertionSort]; exact hm_mem
  obtain ⟨start, ktail, hcons⟩ : ∃ a t, ks = a :: t := by
    cases hks' : ks with
    | nil => rw [hks'] at hmks; cases hmks
    | cons a t => exact ⟨a, t, rfl⟩
  have hstart_min : ∀ k ∈ ks, start ≤ k := by
    intro k hk
    rcases List.mem_cons.mp (hcons ▸ hk) with h | h
    · exact le_of_eq h.symm
    · exact (List.pairwise_cons.mp (hcons ▸ hks_sorted)).1 k h
  have hstart_mem : start ∈ ph.map Prod.fst := by
    have h : start ∈ ks := hcons ▸ List.mem_cons_self start ktail
    rw [hks, List.mem_insertionSort] at h
    exact h
  have hstart_eq : start = m := by
    have h1 : start ≤ m := hstart_min m hmks
    have h2 : m ≤ start := by
      obtain ⟨o', ho', hd'⟩ := (hkeymem start).mp hstart_mem
      exact hd' ▸ hmin o' (hperm.mem_iff.mp ho')
    omega
  have hunfold : portfolio_history history now = portHistAux ph now ks := rfl
  have h1 : portfolio_history history now = buildResult ph (daterange m now) none := by
    rw [hunfold, hcons, portHistAux, hstart_eq]
  by_cases hnow : m ≤ now
  · -- the range is non-empty and starts at the (weekday) earliest trade date
    have hwkm : isWeekday m = true := hod₀ ▸ hwk o₀ ho₀
    set rest' := (List.range' (m + 1) (now - m)).filter isWeekday with hrest'
    have hdr : daterange m now = m :: rest' := by
      rw [daterange, show now + 1 - m = (now - m) + 1 from by omega, List.range'_succ,
        List.filter_cons_of_pos hwkm, hrest']
    obtain ⟨q, hq⟩ := Option.isSome_iff_exists.mp ((hkeys m).mpr ⟨o₀, ho₀s, hod₀⟩)
    have hqs : q = snapAt sortedH m := hlk m q hq
    have hpw : List.Pairwise (· < ·) (m :: rest') := by
      constructor
      · intro d hd
        have h := List.mem_range'_1.mp (List.mem_filter.mp hd).1
        omega
      · exact (List.pairwise_lt_range' (m + 1) (now - m)).filter _
    have hchain : List.Chain' (· < ·) (m :: rest') := hpw.chain'
    have hcover : ∀ o ∈ sortedH,
        o.getDate ≤ m ∨ o.getDate ∈ rest' ∨ ∀ d ∈ rest', d < o.getDate := by
      intro o ho
      have hoh : o ∈ history := hperm.mem_iff.mp ho
      by_cases h2 : o.getDate ≤ m
      · exact Or.inl h2
      · by_cases h3 : o.getDate ≤ now
        · refine Or.inr (Or.inl ?_)
          rw [hrest', List.mem_filter]
          exact ⟨List.mem_range'_1.mpr ⟨by omega, by omega⟩, hwk o hoh⟩
        · refine Or.inr (Or.inr fun d hd => ?_)
          have h := List.mem_range'_1.mp (List.mem_filter.mp hd).1
          omega
    obtain ⟨tbl', htbl', hmap', hval'⟩ :=
      buildResult_go ph sortedH hlk hkeys rest' m q hqs hchain hcover
    have h2 : portfolio_history history now
        = (buildResult ph rest' (some q)).map ((m, q) :: ·) := by
      rw [h1, hdr]
      simp only [buildResult, hq]
    refine ⟨(m, q) :: tbl', ?_, ?_, ?_⟩
    · rw [h2, htbl']
      rfl
    · simp [hmap', hdr]
    · rintro D p hDp s
      have hsnap : p = snapAt sortedH D := by
        rcases List.mem_cons.mp hDp with h | h
        · rw [Prod.mk.injEq] at h
          obtain ⟨rfl, rfl⟩ := h
          exact hqs
        · exact hval' D p h
      rw [hsnap, snapAt_eq_claim sortedH s D hactS,
        claimShares_perm sortedH history s D hperm]
  · -- the current date precedes the earliest trade: the weekday range is empty
    have hdr : daterange m now = [] := by
      rw [daterange, show now + 1 - m = 0 from by omega]
      rfl
    refine ⟨[], ?_, by simp [hdr], by simp⟩
    rw [h1, hdr]
    rfl

/-- Witness for the amended C1: one buy of 2 shares on Monday (day 0),
current day Wednesday (day 2). -/
theorem C1_portfolio_history_witness :
    ∃ tbl, portfolio_history [⟨"AAPL", "buy", 2, 10, 0⟩] 2 = some tbl ∧
      tbl.map Prod.fst = daterange 0 2 ∧
      ∀ D p, (D, p) ∈ tbl → ∀ s, p s = claimShares [⟨"AAPL", "buy", 2, 10, 0⟩] s D :=
  C1_portfolio_history [⟨"AAPL", "buy", 2, 10, 0⟩] 2 0
    (by decide) (by decide) (by decide) (by decide) ⟨⟨"AAPL", "buy", 2, 10, 0⟩, by decide, rfl⟩

/-- Counterexample to C1 as stated: a buy of 1 share of `"A"` on Friday
(day 4) and another on Saturday (day 5), with "now" the following Monday
(day 7).  The claim's signed sum through Monday is 2 shares, but the table
`portfolio_history` returns still shows 1 share on Monday: the Saturday
snapshot is keyed under a weekend date the weekday scan never looks up, so
the Friday snapshot is carried forward instead. -/
theorem C1_counterexample :
    valueAt (portfolio_history
        [⟨"A", "buy", 1, 10, 4 * 86400⟩, ⟨"A", "buy", 1, 10, 5 * 86400⟩] 7) 7 "A"
      = some 1 ∧
    claimShares [⟨"A", "buy", 1, 10, 4 * 86400⟩, ⟨"A", "buy", 1, 10, 5 * 86400⟩] "A" 7
      = 2 := by
  have hbs : decide ("buy" = "sell") = false := rfl
  constructor
  · norm_num [portfolio_history, portHistAux, valueAt, buildHist, buildResult,
      daterange, histLookup, upsert, applyLog, orderLe, RobinhoodOrder.getDate,
      secondsPerDay, isWeekday, List.insertionSort, List.orderedInsert, List.range',
      List.filter, hbs]
    decide
  · norm_num [claimShares, RobinhoodOrder.getDate, secondsPerDay, List.filter, hbs]

/-! ## Cost basis (`get_stock_costs`, claim C5) -/

/-- `cost_cache[d][s] += x` (line 1012). -/
def bumpCost (cc : ℕ → String → ℚ) (d : ℕ) (s : String) (x : ℚ) : ℕ → String → ℚ :=
  fun d' s' => if d' = d ∧ s' = s then cc d' s' + x else cc d' s'

/-- The bucketing loop of `get_stock_costs` (lines 1008-1012): roll each
event's date forward to a holdings-table date and add its signed
`getPrice` there.  `none` models the non-terminating roll-forward (event
dated after every table date) and the `KeyError` on a symbol missing from
the date's dict (whose key set is `stocks`). -/
def bucketCosts (dates : List ℕ) (stocks : List String) :
    List RobinhoodOrder → (ℕ → String → ℚ) → Option (ℕ → String → ℚ)
  | [], cc => some cc
  | o :: rest, cc =>
      match rollForward dates o.getDate with
      | none => none
      | some d =>
          if o.symbol ∈ stocks then
            bucketCosts dates stocks rest (bumpCost cc d o.symbol o.getPrice)
          else none

/-- The cumulative loop of `get_stock_costs` (lines 1013-1018): dates in
ascending order, a running per-symbol total (keys `stocks`), a deep copy
stored per date. -/
def cumCosts (stocks : List String) (cc : ℕ → String → ℚ) :
    List ℕ → (String → ℚ) → List (ℕ × (String → ℚ))
  | [], _ => []
  | d :: rest, running =>
      let running' := fun s => if s ∈ stocks then running s + cc d s else running s
      (d, running') :: cumCosts stocks cc rest running'

/-- `get_stock_costs` (lines 1004-1019).  The holdings table enters only
through its key list `dates` and its per-date symbol key set, which
`portfolio_history` makes the same list `stocks` (= `all_stocks`) on every
date; an empty table raises `IndexError` on `sorted(...)[0]`. -/
def get_stock_costs (orders : List RobinhoodOrder) (dates : List ℕ)
    (stocks : List String) : Option (List (ℕ × (String → ℚ))) :=
  if dates.isEmpty then none
  else
    (bucketCosts dates stocks orders (fun _ _ => 0)).map fun cc =>
      cumCosts stocks cc (List.insertionSort (· ≤ ·) dates) (fun _ => 0)

/-- The event's roll-forward bucket exists and is at most `D`. -/
def bucketLe (dates : List ℕ) (o : RobinhoodOrder) (D : ℕ) : Bool :=
  match rollForward dates o.getDate with
  | some k => decide (k ≤ D)
  | none => false

/-- Per-date bucket content after the bucketing loop. -/
def bucketSum (orders : List RobinhoodOrder) (s : String) (d : ℕ)
    (dates : List ℕ) : ℚ :=
  ((orders.filter fun o =>
      decide (o.symbol = s) && decide (rollForward dates o.getDate = some d)).map
    RobinhoodOrder.getPrice).sum

theorem getPrice_eq (o : RobinhoodOrder) :
    o.getPrice = if o.action = "buy" then -(o.price * o.shares)
                 else o.price * o.shares := by
  unfold RobinhoodOrder.getPrice
  by_cases h : o.action = "buy" <;> simp [h] <;> ring

theorem bucketSum_nil (s : String) (d : ℕ) (dates : List ℕ) :
    bucketSum [] s d dates = 0 := rfl

theorem bucketSum_cons (o : RobinhoodOrder) (rest : List RobinhoodOrder)
    (s : String) (d : ℕ) (dates : List ℕ) :
    bucketSum (o :: rest) s d dates =
      (if o.symbol = s ∧ rollForward dates o.getDate = some d then o.getPrice else 0)
        + bucketSum rest s d dates := by
  unfold bucketSum
  by_cases h : o.symbol = s ∧ rollForward dates o.getDate = some d
  · rw [List.filter_cons_of_pos (by simp [h.1, h.2]), if_pos h]
    simp
  · rw [List.filter_cons_of_neg (by simpa using fun h1 h2 => h ⟨h1, h2⟩), if_neg h]
    simp

theorem bucketCosts_spec (dates : List ℕ) (stocks : List String) :
    ∀ (orders : List RobinhoodOrder) (cc : ℕ → String → ℚ),
    (∀ o ∈ orders, o.symbol ∈ stocks) →
    (∀ o ∈ orders, ∃ k ∈ dates, o.getDate ≤ k) →
    ∃ cc', bucketCosts dates stocks orders cc = some cc' ∧
      ∀ d s, cc' d s = cc d s + bucketSum orders s d dates := by
  intro orders
  induction orders with
  | nil =>
      intro cc _ _
      exact ⟨cc, rfl, fun d s => by rw [bucketSum_nil]; ring⟩
  | cons o rest ih =>
      intro cc hsym hroll
      have hk : (rollForward dates o.getDate).isSome :=
        (rollForward_isSome_iff dates o.getDate).mpr (hroll o (List.mem_cons_self o rest))
      obtain ⟨k, hk⟩ := Option.isSome_iff_exists.mp hk
      obtain ⟨cc', hcc', hval⟩ := ih (bumpCost cc k o.symbol o.getPrice)
        (fun o' h => hsym o' (List.mem_cons_of_mem o h))
        (fun o' h => hroll o' (List.mem_cons_of_mem o h))
      refine ⟨cc', ?_, ?_⟩
      · simp only [bucketCosts, hk, if_pos (hsym o (List.mem_cons_self o rest))]
        exact hcc'
      · intro d s
        rw [hval d s, bucketSum_cons, hk, bumpCost]
        by_cases hd : d = k
        · by_cases hs : s = o.symbol
          · rw [if_pos ⟨hd, hs⟩, if_pos ⟨hs.symm, by rw [hd]⟩]
            ring
          · rw [if_neg (by simp [hs]), if_neg (by rintro ⟨h1, _⟩; exact hs h1.symm)]
            ring
        · rw [if_neg (by simp [hd]),
            if_neg (by simp [Option.some.injEq]; intro _ h; exact hd h.symm)]
          ring

theorem cumCosts_spec (stocks : List String) (cc : ℕ → String → ℚ) :
    ∀ (ds : List ℕ), List.Pairwise (· < ·) ds →
    ∀ (running : String → ℚ),
    (cumCosts stocks cc ds running).map Prod.fst = ds ∧
    ∀ D f, (D, f) ∈ cumCosts stocks cc ds running → ∀ s ∈ stocks,
      f s = running s + ((ds.filter fun d => decide (d ≤ D)).map fun d => cc d s).sum := by
  intro ds
  induction ds with
  | nil => exact fun _ running => ⟨rfl, by simp [cumCosts]⟩
  | cons d₀ rest ih =>
      intro hpw running
      have hd₀ : ∀ d ∈ rest, d₀ < d := (List.pairwise_cons.mp hpw).1
      have hpw' : List.Pairwise (· < ·) rest := (List.pairwise_cons.mp hpw).2
      obtain ⟨hmap, hval⟩ := ih hpw'
        (fun s => if s ∈ stocks then running s + cc d₀ s else running s)
      constructor
      · simp [cumCosts, hmap]
      · rintro D f hDf s hs
        rcases List.mem_cons.mp hDf with h | h
        · rw [Prod.mk.injEq] at h
          obtain ⟨rfl, rfl⟩ := h
          have hfr : rest.filter (fun d => decide (d ≤ D)) = [] := by
            rw [List.filter_eq_nil_iff]
            intro d hd
            have := hd₀ d hd
            simp only [decide_eq_true_eq]
            omega
          rw [List.filter_cons_of_pos (by simp), hfr]
          simp [hs]
        · have hDrest : D ∈ rest := by
            have := hval D f h
            have hD : D ∈ (cumCosts stocks cc rest _).map Prod.fst :=
              List.mem_map.mpr ⟨(D, f), h, rfl⟩
            rwa [hmap] at hD
          have hle : d₀ ≤ D := le_of_lt (hd₀ D hDrest)
          rw [hval D f h s hs, if_pos hs,
            List.filter_cons_of_pos (by simpa using hle)]
          simp only [List.map_cons, List.sum_cons]
          ring

theorem sum_map_add (E : List ℕ) (f g : ℕ → ℚ) :
    (E.map fun d => f d + g d).sum = (E.map f).sum + (E.map g).sum := by
  induction E with
  | nil => simp
  | cons e E' ih => simp only [List.map_cons, List.sum_cons, ih]; ring

theorem sum_map_indicator (E : List ℕ) (hE : E.Nodup) (k : ℕ) (x : ℚ) :
    (E.map fun d => if k = d then x else 0).sum = if k ∈ E then x else 0 := by
  induction E with
  | nil => simp
  | cons e E' ih =>
      have hE' : E'.Nodup := (List.nodup_cons.mp hE).2
      have hke : e ∉ E' := (List.nodup_cons.mp hE).1
      simp only [List.map_cons, List.sum_cons, ih hE', List.mem_cons]
      by_cases h : k = e
      · subst h
        rw [if_pos rfl, if_pos (Or.inl rfl), if_neg hke]
        ring
      · rw [if_neg h]
        by_cases h' : k ∈ E'
        · rw [if_pos h', if_pos (Or.inr h')]
          ring
        · rw [if_neg h', if_neg (by tauto)]
          ring

theorem sum_buckets_exchange (dates : List ℕ) (s : String) :
    ∀ (orders : List RobinhoodOrder) (E : List ℕ), E.Nodup →
    (E.map fun d => bucketSum orders s d dates).sum =
      ((orders.filter fun o =>
          decide (o.symbol = s) &&
          (match rollForward dates o.getDate with
           | some k => decide (k ∈ E)
           | none => false)).map RobinhoodOrder.getPrice).sum := by
  intro orders
  induction orders with
  | nil =>
      intro E _
      simp [bucketSum_nil]
  | cons o rest ih =>
      intro E hE
      have hstep : (E.map fun d => bucketSum (o :: rest) s d dates).sum =
          (E.map fun d =>
            (if o.symbol = s ∧ rollForward dates o.getDate = some d
             then o.getPrice else 0)).sum +
          (E.map fun d => bucketSum rest s d dates).sum := by
        rw [← sum_map_add]
        congr 1
        apply List.map_congr_left
        intro d _
        rw [bucketSum_cons]
      rw [hstep, ih E hE]
      by_cases hs : o.symbol = s
      · cases hk : rollForward dates o.getDate with
        | none =>
            rw [List.filter_cons_of_neg (by simp [hk])]
            have hz : (E.map fun d =>
                (if o.symbol = s ∧ (none : Option ℕ) = some d
                 then o.getPrice else 0)).sum = 0 := by
              have hz' : ∀ d ∈ E,
                  (if o.symbol = s ∧ (none : Option ℕ) = some d
                   then o.getPrice else 0) = 0 := by
                intro d _
                rw [if_neg (by rintro ⟨_, h⟩; cases h)]
              rw [List.map_congr_left hz']
              simp
            rw [hz]
            ring
        | some k =>
            have hind : (E.map fun d =>
                (if o.symbol = s ∧ (some k : Option ℕ) = some d
                 then o.getPrice else 0)).sum =
                if k ∈ E then o.getPrice else 0 := by
              have heq : ∀ d ∈ E,
                  (if o.symbol = s ∧ (some k : Option ℕ) = some d
                   then o.getPrice else 0) =
                  (if k = d then o.getPrice else 0) := by
                intro d _
                by_cases h : k = d
                · rw [if_pos h, if_pos ⟨hs, by rw [h]⟩]
                · rw [if_neg h, if_neg (by
                    rintro ⟨_, h2⟩
                    exact h (Option.some.inj h2))]
              rw [List.map_congr_left heq, sum_map_indicator E hE]
            rw [hind]
            by_cases hkE : k ∈ E
            · rw [if_pos hkE, List.filter_cons_of_pos (by simp [hs, hk, hkE])]
              simp only [List.map_cons, List.sum_cons]
            · rw [if_neg hkE, List.filter_cons_of_neg (by simp [hk, hkE])]
              ring
      · have hzero : (E.map fun d =>
            (if o.symbol = s ∧ rollForward dates o.getDate = some d
             then o.getPrice else 0)).sum = 0 := by
          have : ∀ d ∈ E,
              (if o.symbol = s ∧ rollForward dates o.getDate = some d
               then o.getPrice else 0) = 0 := by
            intro d _
            rw [if_neg (by simp [hs])]
          rw [List.map_congr_left this]
          simp
        rw [hzero, List.filter_cons_of_neg (by simp [hs])]
        ring

/-- **C5.** Every trade event's signed cost — negative `price × shares` for a
buy, positive otherwise — lands in the bucket of the first holdings-table
date at or after the event's date, and the table `get_stock_costs` returns
carries, at each date `D` and symbol `s`, the cumulative sum of all costs
bucketed for `s` at dates `≤ D`, symbols without activity carrying their
prior total forward unchanged. -/
theorem C5_get_stock_costs (orders : List RobinhoodOrder) (dates : List ℕ)
    (stocks : List String)
    (hne : dates ≠ []) (hnd : dates.Nodup)
    (hsym : ∀ o ∈ orders, o.symbol ∈ stocks)
    (hroll : ∀ o ∈ orders, ∃ k ∈ dates, o.getDate ≤ k) :
    ∃ tbl, get_stock_costs orders dates stocks = some tbl ∧
      tbl.map Prod.fst = List.insertionSort (· ≤ ·) dates ∧
      ∀ D f, (D, f) ∈ tbl → ∀ s ∈ stocks,
        f s = ((orders.filter fun o =>
                  decide (o.symbol = s) && bucketLe dates o D).map fun o =>
                if o.action = "buy" then -(o.price * o.shares)
                else o.price * o.shares).sum := by
  classical
  obtain ⟨cc, hcc, hccval⟩ :=
    bucketCosts_spec dates stocks orders (fun _ _ => 0) hsym hroll
  set ds := List.insertionSort (· ≤ ·) dates with hds
  have hperm : ds.Perm dates := List.perm_insertionSort _ _
  have hnd' : ds.Nodup := hperm.nodup_iff.mpr hnd
  have hpw : List.Pairwise (· < ·) ds :=
    (List.sorted_insertionSort _ _).lt_of_le hnd'
  obtain ⟨hmap, hval⟩ := cumCosts_spec stocks cc ds hpw (fun _ => 0)
  refine ⟨cumCosts stocks cc ds (fun _ => 0), ?_, hmap, ?_⟩
  · rw [get_stock_costs, if_neg (by simp [hne]), hcc]
    rfl
  · rintro D f hDf s hs
    rw [hval D f hDf s hs]
    have h1 : ((ds.filter fun d => decide (d ≤ D)).map fun d => cc d s)
        = (ds.filter fun d => decide (d ≤ D)).map
            fun d => bucketSum orders s d dates := by
      apply List.map_congr_left
      intro d _
      rw [hccval d s]
      ring
    rw [h1, sum_buckets_exchange dates s orders _ (hnd'.filter _)]
    have h2 : (orders.filter fun o =>
          decide (o.symbol = s) &&
          (match rollForward dates o.getDate with
           | some k => decide (k ∈ ds.filter fun d => decide (d ≤ D))
           | none => false))
        = orders.filter fun o => decide (o.symbol = s) && bucketLe dates o D := by
      apply List.filter_congr
      intro o ho
      obtain ⟨k, hk⟩ := Option.isSome_iff_exists.mp
        ((rollForward_isSome_iff dates o.getDate).mpr (hroll o ho))
      have hkdates : k ∈ dates := (rollForward_eq_least dates o.getDate k hk).1
      have hkds : k ∈ ds := hperm.mem_iff.mpr hkdates
      rw [bucketLe, hk]
      congr 1
      rw [decide_eq_decide, List.mem_filter]
      simp [hkds]
    rw [h2]
    have h3 : ∀ o ∈ (orders.filter fun o =>
          decide (o.symbol = s) && bucketLe dates o D),
        RobinhoodOrder.getPrice o =
          if o.action = "buy" then -(o.price * o.shares) else o.price * o.shares :=
      fun o _ => getPrice_eq o
    rw [List.map_congr_left h3]
    ring

/-- Witness for C5: a buy and a sell of `"AAPL"`, the sell dated between
table dates so it rolls forward to the later bucket. -/
theorem C5_get_stock_costs_witness :
    ∃ tbl, get_stock_costs
        [⟨"AAPL", "buy", 2, 10, 0⟩, ⟨"AAPL", "sell", 1, 12, 86400⟩] [0, 3] ["AAPL"]
        = some tbl ∧
      tbl.map Prod.fst = List.insertionSort (· ≤ ·) [0, 3] ∧
      ∀ D f, (D, f) ∈ tbl → ∀ s ∈ ["AAPL"],
        f s = (([⟨"AAPL", "buy", 2, 10, 0⟩,
                 (⟨"AAPL", "sell", 1, 12, 86400⟩ : RobinhoodOrder)].filter fun o =>
                  decide (o.symbol = s) && bucketLe [0, 3] o D).map fun o =>
                if o.action = "buy" then -(o.price * o.shares)
                else o.price * o.shares).sum :=
  C5_get_stock_costs _ [0, 3] ["AAPL"] (by decide) (by decide) (by decide)
    (by decide)

/-! ## Returns engine (`time_weighted_returns`, claims C2, C3, C4) -/

/-- `sum_dict` (`Robinhood.py` lines 40-44) over the fixed key set `stocks`. -/
def sum_dict (stocks : List String) (d : String → ℚ) : ℚ := (stocks.map d).sum

/-- A day's total stock value (lines 1093-1097): cached close price times
shares, a missing day or symbol in the price cache contributing 0. -/
def stockValueOn (cache : ℕ → String → Option ℚ) (stocks : List String)
    (portfolio : String → ℚ) (day : ℕ) : ℚ :=
  (stocks.map fun st =>
    (match cache day st with | none => 0 | some pr => pr) * portfolio st).sum

/-- The `port_value` / `cash_flow` construction of `time_weighted_returns`
(lines 1088-1100): walking the sorted holdings dates, a day enters the two
dicts only when its total stock value is nonzero (a zero total is read as a
holiday), the cash-flow bucket starting at 0. -/
def build_pv_cf (days : List ℕ) (ph : ℕ → String → ℚ) (stocks : List String)
    (cache : ℕ → String → Option ℚ) : List (ℕ × ℚ) × List (ℕ × ℚ) :=
  ((List.insertionSort (· ≤ ·) days).filterMap fun d =>
      if stockValueOn cache stocks (ph d) d ≠ 0 then
        some (d, stockValueOn cache stocks (ph d) d)
      else none,
   (List.insertionSort (· ≤ ·) days).filterMap fun d =>
      if stockValueOn cache stocks (ph d) d ≠ 0 then some (d, (0 : ℚ)) else none)

/-- A transfer record as consumed by lines 1102-1109. -/
structure Transfer where
  date : ℕ
  amount : ℚ
  kind : String
deriving DecidableEq, Repr

/-- `cash_flow[date] += / -= amount` in place. -/
def updAdd : List (ℕ × ℚ) → ℕ → ℚ → List (ℕ × ℚ)
  | [], _, _ => []
  | (k, v) :: t, d, x => if k = d then (k, v + x) :: t else (k, v) :: updAdd t d x

/-- The transfer loop (lines 1102-1109): roll each transfer's date forward to
a cash-flow key and add (deposit) or subtract (anything else) its amount. -/
def addTransfers : List Transfer → List (ℕ × ℚ) → Option (List (ℕ × ℚ))
  | [], cf => some cf
  | t :: rest, cf =>
      match rollForward (cf.map Prod.fst) t.date with
      | none => none
      | some d =>
          addTransfers rest
            (updAdd cf d (if t.kind = "deposit" then t.amount else -t.amount))

/-- The cumulative-cash scan (lines 1111-1115) over the date-sorted
cash-flow list. -/
def cumCash : List (ℕ × ℚ) → ℚ → List (ℕ × ℚ)
  | [], _ => []
  | (d, x) :: rest, acc => (d, acc + x) :: cumCash rest (acc + x)

/-- The TWR loop body (lines 1126-1133) after the first date seeded
`prev_date`: `hpr = (end - (init + cash)) / (init + cash)`,
`cum_product *= hpr + 1`, emit `(cum_product - 1) * 100`.  A zero
denominator is Python's `ZeroDivisionError`, hence `none`. -/
def twr_go (cf : ℕ → ℚ) : ℚ → ℚ → List (ℕ × ℚ) → Option (List (ℕ × ℚ))
  | _, _, [] => some []
  | prevVal, cum, (d, v) :: rest =>
      if prevVal + cf d = 0 then none
      else
        (twr_go cf v (cum * ((v - (prevVal + cf d)) / (prevVal + cf d) + 1)) rest).map
          ((d, (cum * ((v - (prevVal + cf d)) / (prevVal + cf d) + 1) - 1) * 100) :: ·)

/-- The whole TWR loop (lines 1120-1133): the first tracked date only seeds
`prev_date` and `cum_product = 1` and emits nothing. -/
def twr_loop (cf : ℕ → ℚ) : List (ℕ × ℚ) → Option (List (ℕ × ℚ))
  | [] => some []
  | (_, v₀) :: rest => twr_go cf v₀ 1 rest

/-- `time_weighted_returns` (lines 1080-1144) without the plotting tail:
holdings dates and rows, the per-symbol key set, the price cache, the
transfer history and the cost-basis table in; the `twr` dict out.  The
cash-flow read in the loop (`cash_flow[day]`) defaults to 0, which is never
exercised because the tracked value keys are cash-flow keys by
construction. -/
def time_weighted_returns (days : List ℕ) (ph : ℕ → String → ℚ)
    (stocks : List String) (cache : ℕ → String → Option ℚ)
    (transfers : List Transfer) (stock_costs : ℕ → String → ℚ) :
    Option (List (ℕ × ℚ)) :=
  match addTransfers transfers (build_pv_cf days ph stocks cache).2 with
  | none => none
  | some cf =>
      let cum := cumCash cf 0
      match (build_pv_cf days ph stocks cache).1.mapM fun dv =>
          (histLookup cum dv.1).map fun c =>
            (dv.1, dv.2 + c + sum_dict stocks (stock_costs dv.1)) with
      | none => none
      | some pv => twr_loop (fun d => (histLookup cf d).getD 0) pv

theorem histLookup_filterMap_not_mem (g : ℕ → ℚ) (P : ℕ → Prop) [DecidablePred P] :
    ∀ (sd : List ℕ) (d : ℕ), d ∉ sd →
    histLookup (sd.filterMap fun e => if P e then some (e, g e) else none) d = none := by
  intro sd
  induction sd with
  | nil => intro d _; rfl
  | cons e rest ih =>
      intro d hd
      have hde : e ≠ d := fun h => hd (h ▸ List.mem_cons_self e rest)
      have hdr : d ∉ rest := fun h => hd (List.mem_cons_of_mem e h)
      by_cases hP : P e
      · rw [List.filterMap_cons_some (by rw [if_pos hP])]
        simp only [histLookup, if_neg hde]
        exact ih d hdr
      · rw [List.filterMap_cons_none (by rw [if_neg hP])]
        exact ih d hdr

theorem histLookup_filterMap (g : ℕ → ℚ) (P : ℕ → Prop) [DecidablePred P] :
    ∀ (sd : List ℕ), sd.Nodup → ∀ d, d ∈ sd →
    histLookup (sd.filterMap fun e => if P e then some (e, g e) else none) d
      = if P d then some (g d) else none := by
  intro sd
  induction sd with
  | nil => intro _ d hd; cases hd
  | cons e rest ih =>
      intro hnd d hd
      have hnd' : rest.Nodup := (List.nodup_cons.mp hnd).2
      rcases List.mem_cons.mp hd with h | h
      · subst h
        have hdr : d ∉ rest := (List.nodup_cons.mp hnd).1
        by_cases hP : P d
        · rw [List.filterMap_cons_some (by rw [if_pos hP])]
          simp [histLookup, hP]
        · rw [List.filterMap_cons_none (by rw [if_neg hP]), if_neg hP]
          exact histLookup_filterMap_not_mem g P rest d hdr
      · have hde : e ≠ d := by
          intro h'
          subst h'
          exact (List.nodup_cons.mp hnd).1 h
        by_cases hP : P e
        · rw [List.filterMap_cons_some (by rw [if_pos hP])]
          simp only [histLookup, if_neg hde]
          exact ih hnd' d h
        · rw [List.filterMap_cons_none (by rw [if_neg hP])]
          exact ih hnd' d h

/-- **C4 (amended).** A holdings date whose total stock value is exactly 0 is
excluded from the value series *and omitted from the cash-flow mapping*
(rather than present with bucket 0); dates with nonzero total value appear
in both, their cash-flow bucket initialised to 0. -/
theorem C4_zero_value_day (days : List ℕ) (ph : ℕ → String → ℚ)
    (stocks : List String) (cache : ℕ → String → Option ℚ) (d : ℕ)
    (hd : d ∈ days) (hnd : days.Nodup) :
    (d ∈ (build_pv_cf days ph stocks cache).1.map Prod.fst ↔
      stockValueOn cache stocks (ph d) d ≠ 0) ∧
    histLookup (build_pv_cf days ph stocks cache).2 d =
      (if stockValueOn cache stocks (ph d) d = 0 then none else some 0) := by
  classical
  have hperm := List.perm_insertionSort (α := ℕ) (· ≤ ·) days
  have hnd' : (List.insertionSort (· ≤ ·) days).Nodup := hperm.nodup_iff.mpr hnd
  have hd' : d ∈ List.insertionSort (· ≤ ·) days := hperm.mem_iff.mpr hd
  constructor
  · rw [← histLookup_isSome_iff_mem_keys]
    show (histLookup ((List.insertionSort (· ≤ ·) days).filterMap fun e =>
        if stockValueOn cache stocks (ph e) e ≠ 0 then
          some (e, stockValueOn cache stocks (ph e) e) else none) d).isSome ↔ _
    rw [histLookup_filterMap (fun e => stockValueOn cache stocks (ph e) e)
      (fun e => stockValueOn cache stocks (ph e) e ≠ 0) _ hnd' d hd']
    by_cases h : stockValueOn cache stocks (ph d) d ≠ 0 <;> simp [h]
  · show histLookup ((List.insertionSort (· ≤ ·) days).filterMap fun e =>
        if stockValueOn cache stocks (ph e) e ≠ 0 then some (e, (0 : ℚ)) else none) d = _
    rw [histLookup_filterMap (fun _ => (0 : ℚ))
      (fun e => stockValueOn cache stocks (ph e) e ≠ 0) _ hnd' d hd']
    by_cases h : stockValueOn cache stocks (ph d) d = 0 <;> simp [h]

/-- Witness for the amended C4 at a two-day portfolio: day 0 has a cached
price (nonzero value, bucket 0), day 1 has none (zero value, omitted). -/
theorem C4_zero_value_day_witness :
    ((0 : ℕ) ∈ (build_pv_cf [0, 1] (fun _ _ => 1) ["A"]
        (fun d _ => if d = 0 then some 10 else none)).1.map Prod.fst ↔
      stockValueOn (fun d _ => if d = 0 then some 10 else none) ["A"]
        ((fun _ _ => (1 : ℚ)) 0) 0 ≠ 0) ∧
    histLookup (build_pv_cf [0, 1] (fun _ _ => 1) ["A"]
        (fun d _ => if d = 0 then some 10 else none)).2 0 =
      (if stockValueOn (fun d _ => if d = 0 then some 10 else none) ["A"]
          ((fun _ _ => (1 : ℚ)) 0) 0 = 0 then none else some 0) :=
  C4_zero_value_day [0, 1] (fun _ _ => 1) ["A"]
    (fun d _ => if d = 0 then some 10 else none) 0 (by decide) (by decide)

/-- Counterexample to C4 as stated: a single holdings date with no cached
price has total stock value 0, and the cash-flow mapping the source builds
is *empty* — the date is not present with bucket 0 as claimed. -/
theorem C4_counterexample :
    stockValueOn (fun _ _ => none) ["A"] ((fun _ _ => (1 : ℚ)) 0) 0 = 0 ∧
    (build_pv_cf [0] (fun _ _ => 1) ["A"] (fun _ _ => none)).2 = [] ∧
    (build_pv_cf [0] (fun _ _ => 1) ["A"] (fun _ _ => none)).1 = [] := by
  refine ⟨by norm_num [stockValueOn], ?_, ?_⟩ <;>
    norm_num [build_pv_cf, stockValueOn, List.insertionSort, List.orderedInsert,
      List.filterMap]

/-- The successive holding-period returns of the TWR loop, starting from the
previous tracked value `v`. -/
def hprChain (cf : ℕ → ℚ) : ℚ → List (ℕ × ℚ) → List ℚ
  | _, [] => []
  | v, (d, w) :: rest => ((w - (v + cf d)) / (v + cf d)) :: hprChain cf w rest

/-- The successive denominators `V(prev) + cashflow(cur)` of the TWR loop. -/
def denChain (cf : ℕ → ℚ) : ℚ → List (ℕ × ℚ) → List ℚ
  | _, [] => []
  | v, (d, w) :: rest => (v + cf d) :: denChain cf w rest

/-- The claim's holding-period return for the consecutive tracked pair
`(j, j+1)` of the value series `pv`. -/
def specHpr (cf : ℕ → ℚ) (pv : List (ℕ × ℚ)) (j : ℕ) : ℚ :=
  ((pv.getD (j + 1) (0, 0)).2 -
      ((pv.getD j (0, 0)).2 + cf (pv.getD (j + 1) (0, 0)).1)) /
    ((pv.getD j (0, 0)).2 + cf (pv.getD (j + 1) (0, 0)).1)

/-- The claim's denominator for the consecutive tracked pair `(j, j+1)`. -/
def specDen (cf : ℕ → ℚ) (pv : List (ℕ × ℚ)) (j : ℕ) : ℚ :=
  (pv.getD j (0, 0)).2 + cf ((pv.getD (j + 1) (0, 0)).1)

theorem denChain_length (cf : ℕ → ℚ) :
    ∀ (l : List (ℕ × ℚ)) (v : ℚ), (denChain cf v l).length = l.length := by
  intro l
  induction l with
  | nil => intro v; rfl
  | cons dw rest ih =>
      intro v
      obtain ⟨d, w⟩ := dw
      simp [denChain, ih]

theorem hprChain_length (cf : ℕ → ℚ) :
    ∀ (l : List (ℕ × ℚ)) (v : ℚ), (hprChain cf v l).length = l.length := by
  intro l
  induction l with
  | nil => intro v; rfl
  | cons dw rest ih =>
      intro v
      obtain ⟨d, w⟩ := dw
      simp [hprChain, ih]

theorem denChain_getD (cf : ℕ → ℚ) :
    ∀ (l : List (ℕ × ℚ)) (v : ℚ) (d₀ : ℕ) (j : ℕ), j < l.length →
    (denChain cf v l).getD j 0 = specDen cf ((d₀, v) :: l) j := by
  intro l
  induction l with
  | nil => intro v d₀ j h; simp at h
  | cons dw rest ih =>
      intro v d₀ j h
      obtain ⟨d, w⟩ := dw
      cases j with
      | zero => simp [denChain, specDen]
      | succ j =>
          rw [denChain, List.getD_cons_succ,
            ih w d j (by simpa using Nat.lt_of_succ_lt_succ h)]
          simp [specDen]

theorem hprChain_getD (cf : ℕ → ℚ) :
    ∀ (l : List (ℕ × ℚ)) (v : ℚ) (d₀ : ℕ) (j : ℕ), j < l.length →
    (hprChain cf v l).getD j 0 = specHpr cf ((d₀, v) :: l) j := by
  intro l
  induction l with
  | nil => intro v d₀ j h; simp at h
  | cons dw rest ih =>
      intro v d₀ j h
      obtain ⟨d, w⟩ := dw
      cases j with
      | zero => simp [hprChain, specHpr]
      | succ j =>
          rw [hprChain, List.getD_cons_succ,
            ih w d j (by simpa using Nat.lt_of_succ_lt_succ h)]
          simp [specHpr]

theorem twr_go_spec (cf : ℕ → ℚ) :
    ∀ (rest : List (ℕ × ℚ)) (v c : ℚ),
    (∀ x ∈ denChain cf v rest, x ≠ 0) →
    ∃ out, twr_go cf v c rest = some out ∧
      out.map Prod.fst = rest.map Prod.fst ∧
      ∀ j, j < rest.length →
        out.getD j (0, 0) =
          ((rest.getD j (0, 0)).1,
           (c * (((hprChain cf v rest).take (j + 1)).map fun h => 1 + h).prod - 1)
             * 100) := by
  intro rest
  induction rest with
  | nil =>
      intro v c _
      exact ⟨[], rfl, rfl, by simp⟩
  | cons dw rest' ih =>
      intro v c hden
      obtain ⟨d, w⟩ := dw
      have hd0 : v + cf d ≠ 0 :=
        hden _ (by rw [denChain]; exact List.mem_cons_self _ _)
      obtain ⟨out', hout', hmap', hval'⟩ :=
        ih w (c * ((w - (v + cf d)) / (v + cf d) + 1))
          (fun x hx => hden x (by rw [denChain]; exact List.mem_cons_of_mem _ hx))
      refine ⟨(d, (c * ((w - (v + cf d)) / (v + cf d) + 1) - 1) * 100) :: out',
        ?_, by simp [hmap'], ?_⟩
      · rw [twr_go, if_neg hd0, hout']
        rfl
      · intro j hj
        cases j with
        | zero =>
            simp only [List.getD_cons_zero, hprChain, List.take_succ_cons,
              List.take_zero, List.map_cons, List.map_nil, List.prod_cons,
              List.prod_nil]
            rw [mul_one]
            have : (w - (v + cf d)) / (v + cf d) + 1
                = 1 + (w - (v + cf d)) / (v + cf d) := by ring
            rw [this]
        | succ j =>
            rw [List.getD_cons_succ, List.getD_cons_succ,
              hval' j (by simpa using Nat.lt_of_succ_lt_succ hj)]
            rw [hprChain, List.take_succ_cons, List.map_cons, List.prod_cons]
            have : c * ((1 + (w - (v + cf d)) / (v + cf d)) *
                (((hprChain cf w rest').take (j + 1)).map fun h => 1 + h).prod)
                = c * ((w - (v + cf d)) / (v + cf d) + 1) *
                  (((hprChain cf w rest').take (j + 1)).map fun h => 1 + h).prod := by
              ring
            rw [this]

/-- **C2.** For every pair of consecutive tracked dates of the value series,
taken in ascending order, the TWR loop computes
`hpr = (V(cur) - (V(prev) + cashflow(cur))) / (V(prev) + cashflow(cur))`,
multiplies a running product by `1 + hpr`, and emits
`(cum_product - 1) * 100` at the current date; the first tracked date
produces no entry in the output. -/
theorem C2_twr_formula (pv : List (ℕ × ℚ)) (cf : ℕ → ℚ)
    (hchain : List.Chain' (fun a b : ℕ × ℚ => a.1 < b.1) pv)
    (hden : ∀ j, j < pv.length - 1 → specDen cf pv j ≠ 0) :
    ∃ out, twr_loop cf pv = some out ∧
      out.map Prod.fst = (pv.map Prod.fst).drop 1 ∧
      (∀ j, j < pv.length - 1 →
        out.getD j (0, 0) =
          ((pv.getD (j + 1) (0, 0)).1,
           (((List.range (j + 1)).map fun i => 1 + specHpr cf pv i).prod - 1)
             * 100)) ∧
      (pv ≠ [] → (pv.getD 0 (0, 0)).1 ∉ out.map Prod.fst) := by
  cases pv with
  | nil => exact ⟨[], rfl, rfl, by simp, by simp⟩
  | cons dv rest =>
      obtain ⟨d₀, v₀⟩ := dv
      have hdenc : ∀ x ∈ denChain cf v₀ rest, x ≠ 0 := by
        intro x hx
        obtain ⟨i, hi, hix⟩ := List.mem_iff_getElem.mp hx
        have hi' : i < rest.length := by
          rwa [denChain_length] at hi
        have hgd : (denChain cf v₀ rest).getD i 0 = x := by
          rw [List.getD_eq_getElem?_getD, List.getElem?_eq_getElem hi]
          simpa using hix
        rw [← hgd, denChain_getD cf rest v₀ d₀ i hi']
        exact hden i (by simpa using hi')
      obtain ⟨out, hout, hmap, hval⟩ := twr_go_spec cf rest v₀ 1 hdenc
      refine ⟨out, hout, by simp [hmap], ?_, ?_⟩
      · intro j hj
        have hj' : j < rest.length := by simpa using hj
        have htake : ((hprChain cf v₀ rest).take (j + 1)).map (fun h => 1 + h)
            = (List.range (j + 1)).map
                fun i => 1 + specHpr cf ((d₀, v₀) :: rest) i := by
          apply List.ext_getElem
          · simp [List.length_take, hprChain_length,
              Nat.min_eq_left (by omega : j + 1 ≤ rest.length)]
          · intro i h1 h2
            simp only [List.getElem_map, List.getElem_take, List.getElem_range]
            have hi : i < rest.length := by
              simp only [List.length_map, List.length_take, hprChain_length,
                lt_min_iff] at h1
              exact h1.2
            congr 1
            rw [← hprChain_getD cf rest v₀ d₀ i hi,
              List.getD_eq_getElem?_getD,
              List.getElem?_eq_getElem (by rwa [hprChain_length])]
            rfl
        rw [hval j hj', List.getD_cons_succ, htake, one_mul]
      · intro _
        rw [hmap, List.getD_cons_zero]
        intro hmem
        obtain ⟨⟨d', w'⟩, hdw, hfst⟩ := List.mem_map.mp hmem
        haveI : IsTrans (ℕ × ℚ) (fun a b => a.1 < b.1) :=
          ⟨fun _ _ _ h1 h2 => lt_trans h1 h2⟩
        have hpw := List.chain'_iff_pairwise.mp hchain
        have hlt := (List.pairwise_cons.mp hpw).1 (d', w') hdw
        simp only at hlt
        simp only at hfst
        omega

/-- Witness for C2: two tracked dates, values 100 then 110, no cash flow —
the emitted TWR is characterised by the formula (it evaluates to 10%). -/
theorem C2_twr_formula_witness :
    ∃ out, twr_loop (fun _ => 0) [(0, 100), (1, 110)] = some out ∧
      out.map Prod.fst = (([(0, 100), (1, 110)] : List (ℕ × ℚ)).map Prod.fst).drop 1 ∧
      (∀ j, j < ([(0, 100), (1, 110)] : List (ℕ × ℚ)).length - 1 →
        out.getD j (0, 0) =
          ((([(0, 100), (1, 110)] : List (ℕ × ℚ)).getD (j + 1) (0, 0)).1,
           (((List.range (j + 1)).map
               fun i => 1 + specHpr (fun _ => 0) [(0, 100), (1, 110)] i).prod - 1)
             * 100)) ∧
      (([(0, 100), (1, 110)] : List (ℕ × ℚ)) ≠ [] →
        ((([(0, 100), (1, 110)] : List (ℕ × ℚ)).getD 0 (0, 0)).1 ∉
          out.map Prod.fst)) :=
  C2_twr_formula [(0, 100), (1, 110)] (fun _ => 0)
    (by constructor <;> simp)
    (by
      intro j hj
      have hj0 : j = 0 := by simpa using hj
      subst hj0
      norm_num [specDen])

theorem twr_go_none (cf : ℕ → ℚ) :
    ∀ (rest : List (ℕ × ℚ)) (v c : ℚ),
    (∃ x ∈ denChain cf v rest, x = 0) → twr_go cf v c rest = none := by
  intro rest
  induction rest with
  | nil =>
      rintro v c ⟨x, hx, _⟩
      rw [denChain] at hx
      cases hx
  | cons dw rest' ih =>
      rintro v c ⟨x, hx, hx0⟩
      obtain ⟨d, w⟩ := dw
      rw [denChain] at hx
      by_cases hd : v + cf d = 0
      · rw [twr_go, if_pos hd]
      · rcases List.mem_cons.mp hx with h | h
        · exact absurd (h ▸ hx0) hd
        · rw [twr_go, if_neg hd, ih w _ ⟨x, h, hx0⟩]
          rfl

/-- **C3.** The holding-period division carries no guard: whenever some
consecutive pair of tracked dates has `V(prev) + cashflow(cur) = 0`, the TWR
computation aborts with Python's `ZeroDivisionError` (`none`) — the
zero-denominator date is neither skipped nor given a substituted default. -/
theorem C3_twr_division_unguarded (pv : List (ℕ × ℚ)) (cf : ℕ → ℚ)
    (hzero : ∃ j, j < pv.length - 1 ∧ specDen cf pv j = 0) :
    twr_loop cf pv = none := by
  cases pv with
  | nil =>
      obtain ⟨j, hj, _⟩ := hzero
      simp at hj
  | cons dv rest =>
      obtain ⟨d₀, v₀⟩ := dv
      obtain ⟨j, hj, hz⟩ := hzero
      have hj' : j < rest.length := by simpa using hj
      have hmem : specDen cf ((d₀, v₀) :: rest) j ∈ denChain cf v₀ rest := by
        rw [← denChain_getD cf rest v₀ d₀ j hj',
          List.getD_eq_getElem?_getD,
          List.getElem?_eq_getElem (by rwa [denChain_length])]
        exact List.getElem_mem _
      exact twr_go_none cf rest v₀ 1 ⟨_, hmem, hz⟩

/-- Witness for C3: values 5 then 7 with a constant cash flow of -5 — the
first denominator is `5 + (-5) = 0`, and the loop aborts. -/
theorem C3_twr_division_unguarded_witness :
    twr_loop (fun _ => -5) [(0, 5), (1, 7)] = none :=
  C3_twr_division_unguarded [(0, 5), (1, 7)] (fun _ => -5)
    ⟨0, by simp, by norm_num [specDen]⟩

end Robinhood
